import Mathlib

/-!
Verification of the PACE key-generation and revocation core
(`pace/pki/keygen.py`).

Python 2 byte strings are embedded as `List Nat` (one entry per byte).
The HMAC-SHA1 primitive and the public-key wrap primitive are external
library calls, so they enter the embedding as function parameters
(`hm : Str → Str → Str` mapping (key, message) to a digest, and
`wrap : Str → Str → Str` mapping (secret key, public key) to a keywrap).
The key store and the two index maps are external collaborators whose
implementations are not part of the core; they are modelled from the
spec's collaborator contracts (§6) as association lists.

Exceptions raised by the code are embedded with `Except String`.
-/

/-- Byte strings (Python 2 `str`): one `Nat` per byte. -/
abbrev Str := List Nat

/-- Decimal representation of a natural number, as ASCII bytes
(Python `str(n)` for `n ≥ 0`). -/
def natToDec (n : Nat) : Str :=
  (Nat.toDigits 10 n).map Char.toNat

/-- Decimal representation of an integer, as ASCII bytes (Python `str(i)`):
a leading `'-'` (byte 45) for negative values. -/
def intToDec (i : Int) : Str :=
  if i < 0 then 45 :: natToDec i.natAbs else natToDec i.natAbs

/-- Output length of SHA-1 in bytes (`h.digest_size` for `hmac.new(msk, digestmod=sha1)`). -/
def DIGEST_SIZE : Nat := 20

/-- The `'|'` delimiter byte used to join the fields of `key_info`. -/
def DELIM : Nat := 124

/-- The loop of `KeyGen._generate_key` (keygen.py lines 77-84): after `n`
iterations returns `(key, block)`, where `key` is the concatenation of all
blocks produced so far and `block` is the last block. Iteration `i`
(0-based) appends `hm(msk, block ++ key_info ++ byte)` where `byte` is the
last byte of the big-endian encoding of `i+1`, i.e. `(i+1) % 256`. -/
def genBlocks (hm : Str → Str → Str) (msk keyInfo : Str) : Nat → Str × Str
  | 0 => ([], [])
  | n + 1 =>
    let p := genBlocks hm msk keyInfo n
    let block := hm msk (p.2 ++ keyInfo ++ [(n + 1) % 256])
    (p.1 ++ block, block)

/-- Embedding of `KeyGen._generate_key` (keygen.py lines 40-85): raises
`ValueError` on a negative key length, otherwise derives
`ceil(keylen / 20)` HMAC blocks chained through `key_info =
'|'.join([attr, str(vers), metadata, str(keylen)])` and returns the first
`keylen` bytes. -/
def generate_key (hm : Str → Str → Str) (msk attr : Str) (vers : Int)
    (metadata : Str) (keylen : Int) : Except String Str :=
  if keylen < 0 then .error "Key length must be non-negative"
  else
    let numBlocks := (keylen.toNat + DIGEST_SIZE - 1) / DIGEST_SIZE
    let keyInfo := attr ++ [DELIM] ++ intToDec vers ++ [DELIM] ++ metadata
                     ++ [DELIM] ++ intToDec keylen
    .ok ((genBlocks hm msk keyInfo numBlocks).1.take keylen.toNat)

/-- Block `i` of the spec's KDF formula (§4.1): `block_0` is empty and
`block_i = HMAC(masterSecret, block_(i-1) ++ info ++ byte(i))`. -/
def specBlock (hm : Str → Str → Str) (msk info : Str) : Nat → Str
  | 0 => []
  | i + 1 => hm msk (specBlock hm msk info i ++ info ++ [i + 1])

/-- The spec's KDF formula (§4.1): the first `keylen` bytes of
`block_1 ++ ... ++ block_n` with `n = ceil(keylen / digestSize)`, where
`info` joins attribute, version, metadata and length with the delimiter. -/
def specKDF (hm : Str → Str → Str) (msk attr : Str) (vers : Int)
    (metadata : Str) (keylen : Int) : Str :=
  let info := attr ++ [DELIM] ++ intToDec vers ++ [DELIM] ++ metadata
                ++ [DELIM] ++ intToDec keylen
  let n := (keylen.toNat + DIGEST_SIZE - 1) / DIGEST_SIZE
  (((List.range n).map (fun i => specBlock hm msk info (i + 1))).flatten).take keylen.toNat

/-- For fewer than 256 blocks, the code's truncated big-endian block counter
agrees with the spec's `byte(i)`, so the loop computes exactly the indexed
block sequence of the spec. -/
theorem genBlocks_eq_spec (hm : Str → Str → Str) (msk info : Str) :
    ∀ n : Nat, n < 256 →
      genBlocks hm msk info n =
        (((List.range n).map (fun i => specBlock hm msk info (i + 1))).flatten,
          specBlock hm msk info n) := by
  intro n
  induction n with
  | zero => intro _; rfl
  | succ n ih =>
    intro hlt
    have hn : n < 256 := Nat.lt_of_succ_lt hlt
    have hmod : (n + 1) % 256 = n + 1 := Nat.mod_eq_of_lt hlt
    simp only [genBlocks, ih hn, hmod, List.range_succ, List.map_append,
      List.map_cons, List.map_nil, List.flatten_append, List.flatten_cons,
      List.flatten_nil, List.append_nil]
    rfl

/-- C3: for every in-range non-negative key length, `_generate_key` returns
the first `keylen` bytes of the chained HMAC block sequence described by the
spec, with the requested length bound into every HMAC input through `info`. -/
theorem generate_key_matches_spec (hm : Str → Str → Str) (msk attr : Str)
    (vers : Int) (metadata : Str) (keylen : Int)
    (h0 : 0 ≤ keylen) (h1 : keylen ≤ 255 * (DIGEST_SIZE : Int)) :
    generate_key hm msk attr vers metadata keylen =
      .ok (specKDF hm msk attr vers metadata keylen) := by
  have hneg : ¬ keylen < 0 := not_lt.mpr h0
  have hk : keylen.toNat ≤ 5100 := by
    simp only [DIGEST_SIZE] at h1
    omega
  have hblocks : (keylen.toNat + DIGEST_SIZE - 1) / DIGEST_SIZE < 256 := by
    simp only [DIGEST_SIZE]
    omega
  simp only [generate_key, specKDF, if_neg hneg,
    genBlocks_eq_spec hm msk _ _ hblocks]

/-- A zero digest function, used to evaluate the embedding on concrete
inputs in the demonstration theorems. -/
def hmZ : Str → Str → Str := fun _ _ => List.replicate DIGEST_SIZE 0

/-- A concrete master secret for the demonstration theorems. -/
def mskZ : Str := List.replicate 20 1

/-- Witness for C3 at concrete input: length 3 under the zero digest. -/
theorem generate_key_matches_spec_witness :
    generate_key hmZ mskZ [97] 0 [109] 3 =
      Except.ok (specKDF hmZ mskZ [97] 0 [109] 3) :=
  generate_key_matches_spec hmZ mskZ [97] 0 [109] 3 (by decide) (by decide)

/-- C2 (code_bug demonstration): `_generate_key` accepts an attribute
containing the `'|'` delimiter (byte 124) and an over-range length
`5101 > 255 * 20` without raising, while `keylen = -1` does raise the
length-domain error and `keylen = 0` yields the empty key. -/
theorem generate_key_missing_validation :
    generate_key hmZ mskZ [97, DELIM, 98] 1 [] 0 = Except.ok []
    ∧ generate_key hmZ mskZ [97] 1 [] (-1) =
        Except.error "Key length must be non-negative"
    ∧ ∃ k, generate_key hmZ mskZ [97] 1 [] 5101 = Except.ok k :=
  ⟨rfl, rfl, ⟨_, rfl⟩⟩

/-- Modelled from the spec: the KeyRecord/KeyInfo tuple stored by the key
store (keystore.py is not part of the core); the field list follows the
constructor calls `KeyInfo(attr, vers, metadata, keywrap, keylen)` in
keygen.py and the spec's KeyRecord (§3). -/
structure KeyInfo where
  attr : Str
  vers : Int
  metadata : Str
  keywrap : Str
  keylen : Int
deriving DecidableEq

/-- The key store's contents: one (userId, record) entry per stored keywrap. -/
abbrev KeyStore := List (Str × KeyInfo)

/-- Modelled from the spec: `insert(userId, KeyRecord)` of the KeyStore
contract (§6) appends one record for the user. -/
def ks_insert (ks : KeyStore) (userid : Str) (ki : KeyInfo) : KeyStore :=
  ks ++ [(userid, ki)]

/-- Modelled from the spec: `metadatasFor(userId, attribute)` of the
KeyStore contract (§6) — the set of metadata values under which the user
holds the attribute, as a duplicate-free list in store order. -/
def get_metadatas (ks : KeyStore) (userid attr : Str) : List Str :=
  (((ks.filter (fun e => decide (e.1 = userid ∧ e.2.attr = attr))).map
    (fun e => e.2.metadata))).dedup

/-- Fold step selecting the record of maximum version among a user's
matching records (§3 invariant 1: the current version is the maximum
stored). -/
def latestStep (acc : Option KeyInfo) (e : Str × KeyInfo) : Option KeyInfo :=
  match acc with
  | none => some e.2
  | some ki => if ki.vers < e.2.vers then some e.2 else some ki

/-- Modelled from the spec: `latestVersion(userId, metadata, attribute)` of
the KeyStore contract (§6) — the user's stored record of maximum version
for that attribute and metadata, or `none` when the user stores no such
record. -/
def retrieve_latest_version (ks : KeyStore) (userid metadata attr : Str) :
    Option KeyInfo :=
  (ks.filter (fun e =>
      decide (e.1 = userid ∧ e.2.attr = attr ∧ e.2.metadata = metadata))).foldl
    latestStep none

/-- Modelled from the spec: `removeRevoked(userId, metadata, attribute)` of
the KeyStore contract (§6) — deletes all of the user's records for that
attribute and metadata. -/
def remove_revoked_keys (ks : KeyStore) (userid metadata attr : Str) : KeyStore :=
  ks.filter (fun e =>
    decide ¬(e.1 = userid ∧ e.2.attr = attr ∧ e.2.metadata = metadata))

/-- The attribute-to-user index: (attribute, userId) pairs. -/
abbrev AttrUserMap := List (Str × Str)

/-- Modelled from the spec: `usersByAttribute(attribute)` of the
AttrUserIndex contract (§6) — an independent snapshot of the set of users
holding the attribute, as a duplicate-free list. -/
def users_by_attribute (m : AttrUserMap) (attr : Str) : List Str :=
  ((m.filter (fun p => decide (p.1 = attr))).map (fun p => p.2)).dedup

/-- Modelled from the spec: `deleteUser(attribute, userId)` of the
AttrUserIndex contract (§6) — removes the pair from the index. -/
def delete_user (m : AttrUserMap) (attr userid : Str) : AttrUserMap :=
  m.filter (fun p => decide ¬(p.1 = attr ∧ p.2 = userid))

/-- The user-to-attribute index: (userId, attribute) pairs. -/
abbrev UserAttrMap := List (Str × Str)

/-- Modelled from the spec: `attributesByUser(userId)` of the UserAttrIndex
contract (§6) — an independent snapshot of the set of attributes the user
holds, as a duplicate-free list. -/
def attributes_by_user (m : UserAttrMap) (userid : Str) : List Str :=
  ((m.filter (fun p => decide (p.1 = userid))).map (fun p => p.2)).dedup

/-- Modelled from the spec: `deleteAttr(userId, attribute)` of the
UserAttrIndex contract (§6) — removes the pair from the index. -/
def delete_attr (m : UserAttrMap) (userid attr : Str) : UserAttrMap :=
  m.filter (fun p => decide ¬(p.1 = userid ∧ p.2 = attr))

/-- The mutable shared state threaded through `revoke`: key store, the two
index maps, and the `metas_keylens` dictionary passed to the call. -/
structure St where
  ks : KeyStore
  aum : AttrUserMap
  uam : UserAttrMap
  mkl : List (Str × Int)
deriving DecidableEq

/-- Lookup in an association list, embedding Python's
`d[k]` / `k in d` dictionary operations (first binding wins). -/
def dictGet (k : Str) : List (Str × α) → Option α
  | [] => none
  | (k', v) :: rest => if k = k' then some v else dictGet k rest

/-- Accumulator of the per-metadata rotation loop of `revoke` (keygen.py
lines 234-243): the key store after the removals so far, the `new_keys`
dictionary, and the loose loop variables `new_vers` / `new_keylen` that
keep the values of the last iteration executed. Python leaves those two
variables unbound before the first iteration; they are initialized to 0
here, and are never read unless the loop body ran (reads are guarded by
`meta in new_keys`). -/
structure RotAcc where
  ks : KeyStore
  newKeys : List (Str × Str)
  new_vers : Int
  new_keylen : Int

/-- One iteration of the rotation loop of `revoke` (keygen.py lines
234-243): fetch the latest version, bump it, pick the (possibly overridden)
length, derive the new key, record it in `new_keys`, and purge the revoked
user's records for this metadata. The `none` branch of the retrieval cannot
occur for a metadata enumerated from the store. -/
def rotateStep (hm : Str → Str → Str) (msk attr userid : Str)
    (mkl : List (Str × Int)) (acc : RotAcc) (meta : Str) :
    Except String RotAcc :=
  match retrieve_latest_version acc.ks userid meta attr with
  | none => .ok acc
  | some cur_info =>
    let new_vers := cur_info.vers + 1
    let new_keylen :=
      match dictGet meta mkl with
      | some l => l
      | none => cur_info.keylen
    match generate_key hm msk attr new_vers meta new_keylen with
    | .error e => .error e
    | .ok new_key =>
      .ok ⟨remove_revoked_keys acc.ks userid meta attr,
           (meta, new_key) :: acc.newKeys, new_vers, new_keylen⟩

/-- The rotation loop of `revoke` over the enumerated metadata list. -/
def rotate (hm : Str → Str → Str) (msk attr userid : Str)
    (mkl : List (Str × Int)) : List Str → RotAcc → Except String RotAcc
  | [], acc => .ok acc
  | meta :: rest, acc =>
    match rotateStep hm msk attr userid mkl acc meta with
    | .error e => .error e
    | .ok acc' => rotate hm msk attr userid mkl rest acc'

/-- The inner re-distribution loop of `revoke` (keygen.py lines 248-254)
for one remaining user: for each of the user's metadata values, if a new
key was minted for it, wrap it under the user's public key and insert the
new record — carrying the leaked `new_vers` / `new_keylen` of the last
rotation iteration into every inserted record, exactly as the source does. -/
def insertForUser (wrap : Str → Str → Str) (user_pks : Str → Str)
    (attr : Str) (newKeys : List (Str × Str)) (nv nk : Int) (user : Str) :
    List Str → KeyStore → KeyStore
  | [], ks => ks
  | meta :: rest, ks =>
    match dictGet meta newKeys with
    | some sk =>
      insertForUser wrap user_pks attr newKeys nv nk user rest
        (ks_insert ks user ⟨attr, nv, meta, wrap sk (user_pks user), nk⟩)
    | none => insertForUser wrap user_pks attr newKeys nv nk user rest ks

/-- The outer re-distribution loop of `revoke` (keygen.py lines 247-254):
for each remaining user, enumerate that user's metadata from the current
key store and run the inner loop. -/
def redistribute (wrap : Str → Str → Str) (user_pks : Str → Str)
    (attr : Str) (newKeys : List (Str × Str)) (nv nk : Int) :
    List Str → KeyStore → KeyStore
  | [], ks => ks
  | user :: rest, ks =>
    redistribute wrap user_pks attr newKeys nv nk rest
      (insertForUser wrap user_pks attr newKeys nv nk user
        (get_metadatas ks user attr) ks)

/-- Embedding of `KeyGen.revoke` (keygen.py lines 194-254): no-op when the
user does not hold the attribute; otherwise delete the pair from both
indices, rotate a new key for every metadata the user held (purging the
user's records), and re-distribute the minted keys to the remaining users.
A `ValueError` from key generation propagates as an error. -/
def revoke (hm wrap : Str → Str → Str) (msk userid attr : Str)
    (user_pks : Str → Str) (st : St) : Except String St :=
  let cur_users := users_by_attribute st.aum attr
  if userid ∈ cur_users then
    let aum' := delete_user st.aum attr userid
    let uam' := delete_attr st.uam userid attr
    let metas := get_metadatas st.ks userid attr
    match rotate hm msk attr userid st.mkl metas ⟨st.ks, [], 0, 0⟩ with
    | .error e => .error e
    | .ok rot =>
      let ks' := redistribute wrap user_pks attr rot.newKeys rot.new_vers
        rot.new_keylen (cur_users.erase userid) rot.ks
      .ok ⟨ks', aum', uam', st.mkl⟩
  else .ok st

/-- The loop of `KeyGen.revoke_all_attrs` (keygen.py lines 282-284):
single-attribute revocation once per attribute in the given list. -/
def revokeList (hm wrap : Str → Str → Str) (msk userid : Str)
    (user_pks : Str → Str) : List Str → St → Except String St
  | [], st => .ok st
  | attr :: rest, st =>
    match revoke hm wrap msk userid attr user_pks st with
    | .error e => .error e
    | .ok st' => revokeList hm wrap msk userid user_pks rest st'

/-- Embedding of `KeyGen.revoke_all_attrs` (keygen.py lines 256-284):
snapshot the user's attribute set from the user-to-attribute index before
any mutation, then revoke each attribute of the snapshot in turn. -/
def revoke_all_attrs (hm wrap : Str → Str → Str) (msk userid : Str)
    (user_pks : Str → Str) (st : St) : Except String St :=
  revokeList hm wrap msk userid user_pks (attributes_by_user st.uam userid) st

/-- Following the spec's words (§4.4): sequential application of
single-attribute revocation for each attribute in the given list. -/
def seqRevoke (hm wrap : Str → Str → Str) (msk userid : Str)
    (user_pks : Str → Str) (attrs : List Str) (st : St) : Except String St :=
  attrs.foldlM (fun s a => revoke hm wrap msk userid a user_pks s) st

/-- The key generator object: `KeyGen.__init__` stores only the master
secret key. -/
structure KeyGen where
  msk : Str

/-- `_generate_key` as a method of the key generator object. -/
def KeyGen.generate (hm : Str → Str → Str) (kg : KeyGen) (attr : Str)
    (vers : Int) (metadata : Str) (keylen : Int) : Except String Str :=
  generate_key hm kg.msk attr vers metadata keylen

/-- Membership characterization of the attribute-to-user snapshot. -/
theorem mem_users_by_attribute {m : AttrUserMap} {a u : Str} :
    u ∈ users_by_attribute m a ↔ (a, u) ∈ m := by
  simp only [users_by_attribute, List.mem_dedup, List.mem_map, List.mem_filter,
    decide_eq_true_eq]
  constructor
  · rintro ⟨⟨a', u'⟩, ⟨hmem, h1⟩, h2⟩
    simp only at h1 h2
    rw [← h1, ← h2]
    exact hmem
  · intro h
    exact ⟨(a, u), ⟨h, rfl⟩, rfl⟩

/-- Membership characterization of the user-to-attribute snapshot. -/
theorem mem_attributes_by_user {m : UserAttrMap} {u a : Str} :
    a ∈ attributes_by_user m u ↔ (u, a) ∈ m := by
  simp only [attributes_by_user, List.mem_dedup, List.mem_map, List.mem_filter,
    decide_eq_true_eq]
  constructor
  · rintro ⟨⟨u', a'⟩, ⟨hmem, h1⟩, h2⟩
    simp only at h1 h2
    rw [← h1, ← h2]
    exact hmem
  · intro h
    exact ⟨(u, a), ⟨h, rfl⟩, rfl⟩

/-- Membership characterization of attribute-to-user index deletion. -/
theorem mem_delete_user {m : AttrUserMap} {attr userid a u : Str} :
    (a, u) ∈ delete_user m attr userid ↔
      (a, u) ∈ m ∧ ¬(a = attr ∧ u = userid) := by
  simp only [delete_user, List.mem_filter, decide_eq_true_eq]

/-- Membership characterization of user-to-attribute index deletion. -/
theorem mem_delete_attr {m : UserAttrMap} {userid attr u a : Str} :
    (u, a) ∈ delete_attr m userid attr ↔
      (u, a) ∈ m ∧ ¬(u = userid ∧ a = attr) := by
  simp only [delete_attr, List.mem_filter, decide_eq_true_eq]

/-- Membership characterization of the store's metadata enumeration. -/
theorem mem_get_metadatas {ks : KeyStore} {u a m : Str} :
    m ∈ get_metadatas ks u a ↔
      ∃ ki, (u, ki) ∈ ks ∧ ki.attr = a ∧ ki.metadata = m := by
  simp only [get_metadatas, List.mem_dedup, List.mem_map, List.mem_filter,
    decide_eq_true_eq]
  constructor
  · rintro ⟨⟨u', ki⟩, ⟨hmem, h1, h2⟩, h3⟩
    simp only at h1 h2 h3
    exact ⟨ki, h1 ▸ hmem, h2, h3⟩
  · rintro ⟨ki, hmem, h2, h3⟩
    exact ⟨(u, ki), ⟨hmem, rfl, h2⟩, h3⟩

/-- Store containment is preserved upward through metadata enumeration. -/
theorem get_metadatas_mono {ks₁ ks₂ : KeyStore} {u a m : Str}
    (hsub : ∀ e, e ∈ ks₁ → e ∈ ks₂) (h : m ∈ get_metadatas ks₁ u a) :
    m ∈ get_metadatas ks₂ u a := by
  rcases mem_get_metadatas.mp h with ⟨ki, hmem, h1, h2⟩
  exact mem_get_metadatas.mpr ⟨ki, hsub _ hmem, h1, h2⟩

/-- A fold with `latestStep` never returns to `none` once an element has
been seen. -/
theorem latestStep_foldl_ne_none (l : List (Str × KeyInfo)) :
    ∀ ki : KeyInfo, l.foldl latestStep (some ki) ≠ none := by
  induction l with
  | nil => intro ki h; cases h
  | cons e rest ih =>
    intro ki
    simp only [List.foldl]
    by_cases hv : ki.vers < e.2.vers
    · simpa [latestStep, hv] using ih e.2
    · simpa [latestStep, hv] using ih ki

/-- The retrieval returns `none` only when the user stores no record for
that attribute and metadata. -/
theorem retrieve_none {ks : KeyStore} {u meta a : Str}
    (h : retrieve_latest_version ks u meta a = none) :
    ∀ ki, (u, ki) ∈ ks → ¬(ki.attr = a ∧ ki.metadata = meta) := by
  rintro ki hmem ⟨h1, h2⟩
  have hf : (u, ki) ∈ ks.filter
      (fun e => decide (e.1 = u ∧ e.2.attr = a ∧ e.2.metadata = meta)) := by
    simp [List.mem_filter, hmem, h1, h2]
  unfold retrieve_latest_version at h
  rcases hl : ks.filter
      (fun e => decide (e.1 = u ∧ e.2.attr = a ∧ e.2.metadata = meta)) with
    _ | ⟨e, rest⟩
  · rw [hl] at hf; cases hf
  · rw [hl] at h
    simp only [List.foldl, latestStep] at h
    exact latestStep_foldl_ne_none rest e.2 h

/-- Case analysis of one successful rotation step: either the retrieval
found nothing and the accumulator is unchanged, or the step recorded a new
key for this metadata and purged the revoked user's records for it. -/
theorem rotateStep_cases {hm : Str → Str → Str} {msk attr userid : Str}
    {mkl : List (Str × Int)} {acc : RotAcc} {meta : Str} {acc' : RotAcc}
    (h : rotateStep hm msk attr userid mkl acc meta = .ok acc') :
    (retrieve_latest_version acc.ks userid meta attr = none ∧ acc' = acc) ∨
    (∃ new_key,
      acc'.ks = remove_revoked_keys acc.ks userid meta attr ∧
      acc'.newKeys = (meta, new_key) :: acc.newKeys) := by
  unfold rotateStep at h
  split at h
  · cases h
    exact Or.inl ⟨by assumption, rfl⟩
  · split at h
    all_goals try simp only [] at h
    all_goals split at h
    all_goals first
      | (cases h; exact Or.inr ⟨_, rfl, rfl⟩)
      | cases h

/-- A successful rotation step never adds store entries. -/
theorem rotateStep_subset {hm : Str → Str → Str} {msk attr userid : Str}
    {mkl : List (Str × Int)} {acc : RotAcc} {meta : Str} {acc' : RotAcc}
    (h : rotateStep hm msk attr userid mkl acc meta = .ok acc') :
    ∀ e, e ∈ acc'.ks → e ∈ acc.ks := by
  rcases rotateStep_cases h with ⟨_, rfl⟩ | ⟨nk, hks, _⟩
  · intro e he; exact he
  · intro e he
    rw [hks] at he
    exact (List.mem_filter.mp he).1

/-- A successful rotation never adds store entries. -/
theorem rotate_subset {hm : Str → Str → Str} {msk attr userid : Str}
    {mkl : List (Str × Int)} :
    ∀ (ms : List Str) (acc rot : RotAcc),
      rotate hm msk attr userid mkl ms acc = .ok rot →
      ∀ e, e ∈ rot.ks → e ∈ acc.ks := by
  intro ms
  induction ms with
  | nil =>
    intro acc rot h e he
    cases h
    exact he
  | cons meta rest ih =>
    intro acc rot h e he
    simp only [rotate] at h
    rcases hstep : rotateStep hm msk attr userid mkl acc meta with e' | acc'
    · rw [hstep] at h; cases h
    · rw [hstep] at h
      exact rotateStep_subset hstep e (ih acc' rot h e he)

/-- After a successful rotation over the metadata list `ms`, the revoked
user stores no record for the attribute under any metadata of `ms`. -/
theorem rotate_clears {hm : Str → Str → Str} {msk attr userid : Str}
    {mkl : List (Str × Int)} :
    ∀ (ms : List Str) (acc rot : RotAcc),
      rotate hm msk attr userid mkl ms acc = .ok rot →
      ∀ m, m ∈ ms → ∀ ki, (userid, ki) ∈ rot.ks →
        ¬(ki.attr = attr ∧ ki.metadata = m) := by
  intro ms
  induction ms with
  | nil =>
    intro acc rot h m hmem
    cases hmem
  | cons meta rest ih =>
    intro acc rot h m hmem ki hks hcontra
    simp only [rotate] at h
    rcases hstep : rotateStep hm msk attr userid mkl acc meta with e' | acc'
    · rw [hstep] at h; cases h
    · rw [hstep] at h
      rcases List.mem_cons.mp hmem with rfl | hrest
      · have hin : (userid, ki) ∈ acc'.ks := rotate_subset rest acc' rot h _ hks
        rcases rotateStep_cases hstep with ⟨hr, rfl⟩ | ⟨nk, hks', _⟩
        · exact retrieve_none hr ki hin hcontra
        · rw [hks'] at hin
          have hp := of_decide_eq_true (List.mem_filter.mp hin).2
          exact hp ⟨rfl, hcontra.1, hcontra.2⟩
      · exact ih acc' rot h m hrest ki hks hcontra

/-- New keys recorded by a successful rotation are keyed by metadata values
of the processed list. -/
theorem rotate_newKeys {hm : Str → Str → Str} {msk attr userid : Str}
    {mkl : List (Str × Int)} :
    ∀ (ms : List Str) (acc rot : RotAcc),
      rotate hm msk attr userid mkl ms acc = .ok rot →
      ∀ m, (dictGet m rot.newKeys).isSome = true →
        (dictGet m acc.newKeys).isSome = true ∨ m ∈ ms := by
  intro ms
  induction ms with
  | nil =>
    intro acc rot h m hget
    cases h
    exact Or.inl hget
  | cons meta rest ih =>
    intro acc rot h m hget
    simp only [rotate] at h
    rcases hstep : rotateStep hm msk attr userid mkl acc meta with e' | acc'
    · rw [hstep] at h; cases h
    · rw [hstep] at h
      rcases ih acc' rot h m hget with hin | hrest
      · rcases rotateStep_cases hstep with ⟨_, rfl⟩ | ⟨nk, _, hnew⟩
        · exact Or.inl hin
        · rw [hnew] at hin
          by_cases hmm : m = meta
          · exact Or.inr (hmm ▸ List.mem_cons_self meta rest)
          · simp only [dictGet, if_neg hmm] at hin
            exact Or.inl hin
      · exact Or.inr (List.mem_cons_of_mem _ hrest)

/-- The inner re-distribution loop only adds entries. -/
theorem insertForUser_superset {wrap : Str → Str → Str} {pks : Str → Str}
    {attr : Str} {nks : List (Str × Str)} {nv nk : Int} {user : Str} :
    ∀ (ms : List Str) (ks : KeyStore) (e : Str × KeyInfo),
      e ∈ ks → e ∈ insertForUser wrap pks attr nks nv nk user ms ks := by
  intro ms
  induction ms with
  | nil => intro ks e he; exact he
  | cons meta rest ih =>
    intro ks e he
    simp only [insertForUser]
    split
    · exact ih _ e (by simp [ks_insert, he])
    · exact ih _ e he

/-- Entries produced by the inner re-distribution loop for one user: either
they were already present, or they are new records for this user, for the
attribute, under a metadata of the processed list for which a new key was
minted. -/
theorem insertForUser_mem {wrap : Str → Str → Str} {pks : Str → Str}
    {attr : Str} {nks : List (Str × Str)} {nv nk : Int} {user : Str} :
    ∀ (ms : List Str) (ks : KeyStore) (e : Str × KeyInfo),
      e ∈ insertForUser wrap pks attr nks nv nk user ms ks →
      e ∈ ks ∨ (e.1 = user ∧ e.2.attr = attr ∧ e.2.metadata ∈ ms ∧
                (dictGet e.2.metadata nks).isSome = true) := by
  intro ms
  induction ms with
  | nil => intro ks e he; exact Or.inl he
  | cons meta rest ih =>
    intro ks e he
    simp only [insertForUser] at he
    split at he
    · rename_i sk hd
      rcases ih _ e he with hin | hprops
      · have hin' : e ∈ ks ∨
            e = (user, ⟨attr, nv, meta, wrap sk (pks user), nk⟩) := by
          simpa [ks_insert] using hin
        rcases hin' with h' | rfl
        · exact Or.inl h'
        · refine Or.inr ⟨rfl, rfl, List.mem_cons_self meta rest, ?_⟩
          simp [hd]
      · exact Or.inr ⟨hprops.1, hprops.2.1,
          List.mem_cons_of_mem _ hprops.2.2.1, hprops.2.2.2⟩
    · rcases ih _ e he with hin | hprops
      · exact Or.inl hin
      · exact Or.inr ⟨hprops.1, hprops.2.1,
          List.mem_cons_of_mem _ hprops.2.2.1, hprops.2.2.2⟩

/-- The inner re-distribution loop for one user leaves every other user's
metadata enumeration unchanged. -/
theorem insertForUser_metadatas {wrap : Str → Str → Str} {pks : Str → Str}
    {attr : Str} {nks : List (Str × Str)} {nv nk : Int} {user : Str}
    {ms : List Str} {ks : KeyStore} {u' a m : Str} (hne : u' ≠ user) :
    m ∈ get_metadatas (insertForUser wrap pks attr nks nv nk user ms ks) u' a ↔
      m ∈ get_metadatas ks u' a := by
  constructor
  · intro h
    rcases mem_get_metadatas.mp h with ⟨ki, hmem, h1, h2⟩
    rcases insertForUser_mem ms ks (u', ki) hmem with hin | hprops
    · exact mem_get_metadatas.mpr ⟨ki, hin, h1, h2⟩
    · exact absurd hprops.1 hne
  · intro h
    rcases mem_get_metadatas.mp h with ⟨ki, hmem, h1, h2⟩
    exact mem_get_metadatas.mpr ⟨ki, insertForUser_superset ms ks _ hmem, h1, h2⟩

/-- Entries present after the re-distribution loop: either they were in the
store the loop started from, or they are new records for one of the listed
users, for the attribute, under a metadata that user held (relative to any
per-user bound `M` on the evolving metadata enumeration) and for which a
new key was minted. -/
theorem redistribute_mem {wrap : Str → Str → Str} {pks : Str → Str}
    {attr : Str} {nks : List (Str × Str)} {nv nk : Int} (M : Str → List Str) :
    ∀ (users : List Str), users.Nodup → ∀ ks : KeyStore,
      (∀ u, u ∈ users → ∀ m, m ∈ get_metadatas ks u attr → m ∈ M u) →
      ∀ e, e ∈ redistribute wrap pks attr nks nv nk users ks →
        e ∈ ks ∨ (e.1 ∈ users ∧ e.2.attr = attr ∧ e.2.metadata ∈ M e.1 ∧
                  (dictGet e.2.metadata nks).isSome = true) := by
  intro users
  induction users with
  | nil => intro _ ks _ e he; exact Or.inl he
  | cons user rest ih =>
    intro hnd ks hM e he
    simp only [redistribute] at he
    have hnd' := List.nodup_cons.mp hnd
    have hM' : ∀ u, u ∈ rest →
        ∀ m, m ∈ get_metadatas (insertForUser wrap pks attr nks nv nk user
          (get_metadatas ks user attr) ks) u attr → m ∈ M u := by
      intro u hu m hm'
      have hneq : u ≠ user := fun hEq => hnd'.1 (hEq ▸ hu)
      exact hM u (List.mem_cons_of_mem _ hu) m
        ((insertForUser_metadatas hneq).mp hm')
    rcases ih hnd'.2 _ hM' e he with h1 | hprops
    · rcases insertForUser_mem (get_metadatas ks user attr) ks e h1 with h2 | hp
      · exact Or.inl h2
      · refine Or.inr ⟨?_, hp.2.1, ?_, hp.2.2.2⟩
        · rw [hp.1]; exact List.mem_cons_self user rest
        · have hMu := hM user (List.mem_cons_self user rest) _ hp.2.2.1
          rw [hp.1]; exact hMu
    · exact Or.inr ⟨List.mem_cons_of_mem _ hprops.1, hprops.2.1,
        hprops.2.2.1, hprops.2.2.2⟩

/-- Case analysis of a successful `revoke` call: either the user did not
hold the attribute and the state is returned untouched, or the rotation
succeeded and the result state is the redistributed store together with
both index deletions, with `metas_keylens` passed through unchanged. -/
theorem revoke_cases {hm wrap : Str → Str → Str} {msk userid attr : Str}
    {pks : Str → Str} {st st' : St}
    (h : revoke hm wrap msk userid attr pks st = Except.ok st') :
    (userid ∉ users_by_attribute st.aum attr ∧ st' = st) ∨
    (userid ∈ users_by_attribute st.aum attr ∧
     ∃ rot, rotate hm msk attr userid st.mkl
         (get_metadatas st.ks userid attr) ⟨st.ks, [], 0, 0⟩ = Except.ok rot ∧
       st' = ⟨redistribute wrap pks attr rot.newKeys rot.new_vers rot.new_keylen
                ((users_by_attribute st.aum attr).erase userid) rot.ks,
              delete_user st.aum attr userid,
              delete_attr st.uam userid attr, st.mkl⟩) := by
  unfold revoke at h
  by_cases hmem : userid ∈ users_by_attribute st.aum attr
  · rw [if_pos hmem] at h
    simp only [] at h
    rcases hrot : rotate hm msk attr userid st.mkl
        (get_metadatas st.ks userid attr) ⟨st.ks, [], 0, 0⟩ with e' | rot
    · rw [hrot] at h; cases h
    · rw [hrot] at h
      cases h
      exact Or.inr ⟨hmem, rot, rfl, rfl⟩
  · rw [if_neg hmem] at h
    cases h
    exact Or.inl ⟨hmem, rfl⟩

/-- C4: revoking an attribute from a user who does not currently hold it
returns without error and without any mutation: the key store and both
indices are returned exactly as they were. -/
theorem revoke_noop (hm wrap : Str → Str → Str) (msk userid attr : Str)
    (pks : Str → Str) (st : St)
    (h : userid ∉ users_by_attribute st.aum attr) :
    revoke hm wrap msk userid attr pks st = Except.ok st := by
  simp only [revoke, if_neg h]

/-- C5: `revoke` preserves the index mirror invariant, deleting the
(attribute, user) pair from both indices together and mutating no other
index entry. -/
theorem revoke_mirror_invariant (hm wrap : Str → Str → Str)
    (msk userid attr : Str) (pks : Str → Str) (st st' : St)
    (hmir : ∀ u a : Str, (a, u) ∈ st.aum ↔ (u, a) ∈ st.uam)
    (h : revoke hm wrap msk userid attr pks st = Except.ok st') :
    (∀ u a : Str, (a, u) ∈ st'.aum ↔ (u, a) ∈ st'.uam)
    ∧ (∀ u a : Str, (a, u) ∈ st'.aum ↔
        ((a, u) ∈ st.aum ∧ ¬(a = attr ∧ u = userid)))
    ∧ (∀ u a : Str, (u, a) ∈ st'.uam ↔
        ((u, a) ∈ st.uam ∧ ¬(a = attr ∧ u = userid))) := by
  rcases revoke_cases h with ⟨hnot, heq⟩ | ⟨hmem, rot, hrot, heq⟩
  all_goals rw [heq]
  · have hnotpair : (attr, userid) ∉ st.aum := fun hc =>
      hnot (mem_users_by_attribute.mpr hc)
    refine ⟨hmir, ?_, ?_⟩
    · intro u a
      constructor
      · intro hin
        refine ⟨hin, ?_⟩
        rintro ⟨rfl, rfl⟩
        exact hnotpair hin
      · exact fun hin => hin.1
    · intro u a
      constructor
      · intro hin
        refine ⟨hin, ?_⟩
        rintro ⟨rfl, rfl⟩
        exact hnotpair ((hmir _ _).mpr hin)
      · exact fun hin => hin.1
  · refine ⟨?_, ?_, ?_⟩
    · intro u a
      show (a, u) ∈ delete_user st.aum attr userid ↔
        (u, a) ∈ delete_attr st.uam userid attr
      rw [mem_delete_user, mem_delete_attr, hmir u a]
      tauto
    · intro u a
      show (a, u) ∈ delete_user st.aum attr userid ↔ _
      rw [mem_delete_user]
    · intro u a
      show (u, a) ∈ delete_attr st.uam userid attr ↔ _
      rw [mem_delete_attr]
      tauto

/-- C6: after revoking an attribute a user held, the key store contains no
record for that user under the attribute, for any metadata. -/
theorem revoke_purges_revoked (hm wrap : Str → Str → Str)
    (msk userid attr : Str) (pks : Str → Str) (st st' : St)
    (hmem : userid ∈ users_by_attribute st.aum attr)
    (h : revoke hm wrap msk userid attr pks st = Except.ok st') :
    ∀ ki : KeyInfo, ¬((userid, ki) ∈ st'.ks ∧ ki.attr = attr) := by
  rcases revoke_cases h with ⟨hnot, _⟩ | ⟨_, rot, hrot, rfl⟩
  · exact absurd hmem hnot
  · rintro ki ⟨hin, hattr⟩
    have hnodup : ((users_by_attribute st.aum attr).erase userid).Nodup :=
      List.Nodup.erase userid (List.nodup_dedup _)
    have hsub : ∀ e, e ∈ rot.ks → e ∈ st.ks := rotate_subset _ _ _ hrot
    have hM : ∀ u, u ∈ (users_by_attribute st.aum attr).erase userid →
        ∀ m, m ∈ get_metadatas rot.ks u attr →
          m ∈ get_metadatas st.ks u attr :=
      fun u _ m hm' => get_metadatas_mono hsub hm'
    rcases redistribute_mem (fun u => get_metadatas st.ks u attr) _ hnodup _
        hM _ hin with h1 | hprops
    · have hin0 : (userid, ki) ∈ st.ks := hsub _ h1
      have hmeta : ki.metadata ∈ get_metadatas st.ks userid attr :=
        mem_get_metadatas.mpr ⟨ki, hin0, hattr, rfl⟩
      exact rotate_clears _ _ _ hrot _ hmeta ki h1 ⟨hattr, rfl⟩
    · exact List.Nodup.not_mem_erase (List.nodup_dedup _) hprops.1

/-- C7: records inserted by `revoke` go only to users of the pre-removal
authorized set other than the revoked user, and only under metadata that
user already held for the attribute and for which the rotation step minted
a new key (a metadata the revoked user held). -/
theorem revoke_insert_scope (hm wrap : Str → Str → Str)
    (msk userid attr : Str) (pks : Str → Str) (st st' : St)
    (h : revoke hm wrap msk userid attr pks st = Except.ok st') :
    ∀ u ki, (u, ki) ∈ st'.ks →
      (u, ki) ∈ st.ks ∨
      (u ∈ users_by_attribute st.aum attr ∧ u ≠ userid ∧
       ki.metadata ∈ get_metadatas st.ks u attr ∧
       ki.metadata ∈ get_metadatas st.ks userid attr) := by
  rcases revoke_cases h with ⟨_, rfl⟩ | ⟨hmem, rot, hrot, rfl⟩
  · exact fun u ki hin => Or.inl hin
  · intro u ki hin
    have hnodup : ((users_by_attribute st.aum attr).erase userid).Nodup :=
      List.Nodup.erase userid (List.nodup_dedup _)
    have hsub : ∀ e, e ∈ rot.ks → e ∈ st.ks := rotate_subset _ _ _ hrot
    have hM : ∀ u, u ∈ (users_by_attribute st.aum attr).erase userid →
        ∀ m, m ∈ get_metadatas rot.ks u attr →
          m ∈ get_metadatas st.ks u attr :=
      fun u _ m hm' => get_metadatas_mono hsub hm'
    rcases redistribute_mem (fun u => get_metadatas st.ks u attr) _ hnodup _
        hM _ hin with h1 | hprops
    · exact Or.inl (hsub _ h1)
    · right
      have hmei := (List.Nodup.mem_erase_iff (List.nodup_dedup _)).mp hprops.1
      refine ⟨hmei.2, hmei.1, hprops.2.2.1, ?_⟩
      rcases rotate_newKeys _ _ _ hrot _ hprops.2.2.2 with habs | hms
      · simp [dictGet] at habs
      · exact hms

/-- The explicit loop of `revoke_all_attrs` agrees with the monadic
sequential composition of single-attribute revocations. -/
theorem revokeList_eq_seq (hm wrap : Str → Str → Str) (msk userid : Str)
    (pks : Str → Str) :
    ∀ (l : List Str) (st : St),
      revokeList hm wrap msk userid pks l st =
        seqRevoke hm wrap msk userid pks l st := by
  intro l
  induction l with
  | nil => intro st; rfl
  | cons a rest ih =>
    intro st
    simp only [revokeList, seqRevoke, List.foldlM_cons]
    rcases hrev : revoke hm wrap msk userid a pks st with e | st₁
    · rfl
    · exact ih st₁

/-- C8: `revoke_all_attrs` snapshots the user's attribute set before any
mutation and its end state is that of sequentially revoking each attribute
the user held at call time. -/
theorem revoke_all_attrs_eq_seq (hm wrap : Str → Str → Str)
    (msk userid : Str) (pks : Str → Str) (st : St) :
    revoke_all_attrs hm wrap msk userid pks st =
      seqRevoke hm wrap msk userid pks (attributes_by_user st.uam userid) st :=
  revokeList_eq_seq hm wrap msk userid pks _ st

/-- C9: key derivation is a pure function of the master secret and the four
inputs: two key generator objects holding the same master secret produce
byte-for-byte identical output on every input, with no other state
involved. -/
theorem generate_key_deterministic (hm : Str → Str → Str)
    (kg1 kg2 : KeyGen) (attr : Str) (vers : Int) (metadata : Str)
    (keylen : Int) (h : kg1.msk = kg2.msk) :
    KeyGen.generate hm kg1 attr vers metadata keylen =
      KeyGen.generate hm kg2 attr vers metadata keylen := by
  simp only [KeyGen.generate, h]

/-- A successful `revoke` passes the `metas_keylens` mapping through
unchanged. -/
theorem revoke_mkl {hm wrap : Str → Str → Str} {msk userid attr : Str}
    {pks : Str → Str} {st st' : St}
    (h : revoke hm wrap msk userid attr pks st = Except.ok st') :
    st'.mkl = st.mkl := by
  rcases revoke_cases h with ⟨_, rfl⟩ | ⟨_, rot, _, rfl⟩
  · rfl
  · rfl

/-- The loop of `revoke_all_attrs` passes `metas_keylens` through
unchanged. -/
theorem revokeList_mkl {hm wrap : Str → Str → Str} {msk userid : Str}
    {pks : Str → Str} :
    ∀ (l : List Str) (st st' : St),
      revokeList hm wrap msk userid pks l st = Except.ok st' →
      st'.mkl = st.mkl := by
  intro l
  induction l with
  | nil =>
    intro st st' h
    cases h
    rfl
  | cons a rest ih =>
    intro st st' h
    simp only [revokeList] at h
    rcases hrev : revoke hm wrap msk userid a pks st with e | st₁
    · rw [hrev] at h; cases h
    · rw [hrev] at h
      exact (ih st₁ st' h).trans (revoke_mkl hrev)

/-- C10: neither `revoke` nor `revoke_all_attrs` ever writes to the
`metas_keylens` mapping: whatever mapping a call receives is returned
unchanged. -/
theorem revoke_frames_metas_keylens (hm wrap : Str → Str → Str)
    (msk userid attr : Str) (pks : Str → Str) (st : St) :
    (∀ st', revoke hm wrap msk userid attr pks st = Except.ok st' →
      st'.mkl = st.mkl)
    ∧ (∀ st', revoke_all_attrs hm wrap msk userid pks st = Except.ok st' →
      st'.mkl = st.mkl) :=
  ⟨fun _ h => revoke_mkl h, fun _ h => revokeList_mkl _ st _ h⟩

/-- Identity wrap function for the concrete evaluations: the keywrap is the
key itself. -/
def wrapC : Str → Str → Str := fun sk _ => sk

/-- Trivial public-key directory for the concrete evaluations. -/
def pksZ : Str → Str := fun _ => []

/-- Concrete user id "u". -/
def uU : Str := [117]

/-- Concrete user id "w". -/
def wU : Str := [119]

/-- Concrete attribute "a". -/
def aA : Str := [97]

/-- Concrete metadata "m". -/
def m1 : Str := [109]

/-- Concrete metadata "n". -/
def m2 : Str := [110]

/-- The 20-byte output of `hmZ`. -/
def z20 : Str := List.replicate 20 0

/-- Concrete state for the version-leak demonstration: user u holds
attribute a under metadata m (version 1) and metadata n (version 5); user w
holds a under m (version 1); both indices mirror this. -/
def stAB : St :=
  ⟨[(uU, ⟨aA, 1, m1, [], 20⟩), (uU, ⟨aA, 5, m2, [], 20⟩),
    (wU, ⟨aA, 1, m1, [7], 20⟩)],
   [(aA, uU), (aA, wU)], [(uU, aA), (wU, aA)], []⟩

/-- The state produced by revoking attribute a from user u in `stAB`. -/
def stAB' : St :=
  ⟨[(wU, ⟨aA, 1, m1, [7], 20⟩), (wU, ⟨aA, 6, m1, z20, 20⟩)],
   [(aA, wU)], [(wU, aA)], []⟩

/-- C1 (code_bug demonstration): revoking u's attribute a in `stAB` inserts
for w a record for metadata m carrying version 6 — the `new_vers` of the
last rotation iteration, which belongs to metadata n (5 + 1) — instead of
version 2 = oldVersion(m) + 1 required per metadata. -/
theorem revoke_redistributes_last_version :
    revoke hmZ wrapC mskZ uU aA pksZ stAB = Except.ok stAB'
    ∧ (wU, ⟨aA, 6, m1, z20, 20⟩) ∈ stAB'.ks
    ∧ (wU, ⟨aA, 2, m1, z20, 20⟩) ∉ stAB'.ks :=
  ⟨rfl, by decide, by decide⟩

/-- Concrete state in which user u does not hold attribute a. -/
def stNo : St :=
  ⟨[(wU, ⟨aA, 1, m1, [7], 20⟩)], [(aA, wU)], [(wU, aA)], [(m1, 32)]⟩

/-- Witness for C4 at concrete input: u holds nothing for a, and revoking
returns the state untouched. -/
theorem revoke_noop_witness :
    uU ∉ users_by_attribute stNo.aum aA ∧
    revoke hmZ wrapC mskZ uU aA pksZ stNo = Except.ok stNo :=
  ⟨by decide, revoke_noop hmZ wrapC mskZ uU aA pksZ stNo (by decide)⟩

/-- Concrete mirrored-index state with an empty key store. -/
def stMir : St :=
  ⟨[], [(aA, uU), (aA, wU)], [(uU, aA), (wU, aA)], []⟩

/-- The state produced by revoking attribute a from user u in `stMir`. -/
def stMir' : St :=
  ⟨[], [(aA, wU)], [(wU, aA)], []⟩

/-- Witness for C5 at concrete input: the mirror biconditional holds after
the revocation. -/
theorem revoke_mirror_invariant_witness :
    (aA, uU) ∈ stMir'.aum ↔ (uU, aA) ∈ stMir'.uam :=
  (revoke_mirror_invariant hmZ wrapC mskZ uU aA pksZ stMir stMir'
    (by intro u a; simp [stMir]; tauto) rfl).1 uU aA

/-- Witness for C6 at concrete input: after the revocation in `stAB`, user
u's original record for (a, m) is gone. -/
theorem revoke_purges_revoked_witness :
    ¬((uU, (⟨aA, 1, m1, [], 20⟩ : KeyInfo)) ∈ stAB'.ks ∧
      (⟨aA, 1, m1, [], 20⟩ : KeyInfo).attr = aA) :=
  revoke_purges_revoked hmZ wrapC mskZ uU aA pksZ stAB stAB' (by decide) rfl
    ⟨aA, 1, m1, [], 20⟩

/-- Witness for C7 at concrete input: the record the revocation in `stAB`
inserted for w is scoped to w's and u's previously held metadata. -/
theorem revoke_insert_scope_witness :
    (wU, (⟨aA, 6, m1, z20, 20⟩ : KeyInfo)) ∈ stAB.ks ∨
    (wU ∈ users_by_attribute stAB.aum aA ∧ wU ≠ uU ∧
     (⟨aA, 6, m1, z20, 20⟩ : KeyInfo).metadata ∈ get_metadatas stAB.ks wU aA ∧
     (⟨aA, 6, m1, z20, 20⟩ : KeyInfo).metadata ∈ get_metadatas stAB.ks uU aA) :=
  revoke_insert_scope hmZ wrapC mskZ uU aA pksZ stAB stAB' rfl wU
    ⟨aA, 6, m1, z20, 20⟩ (by decide)

/-- Witness for C9 at concrete input. -/
theorem generate_key_deterministic_witness :
    KeyGen.generate hmZ ⟨mskZ⟩ aA 1 m1 16 =
      KeyGen.generate hmZ ⟨mskZ⟩ aA 1 m1 16 :=
  generate_key_deterministic hmZ ⟨mskZ⟩ ⟨mskZ⟩ aA 1 m1 16 rfl

/-- Concrete state for the frame witness: a length override for metadata m
is in effect. -/
def stM : St :=
  ⟨[(uU, ⟨aA, 1, m1, [], 20⟩), (wU, ⟨aA, 1, m1, [7], 20⟩)],
   [(aA, uU), (aA, wU)], [(uU, aA), (wU, aA)], [(m1, 32)]⟩

/-- The state produced by revoking attribute a (or all attributes) of user
u in `stM`: the new record uses the overridden length 32. -/
def stM' : St :=
  ⟨[(wU, ⟨aA, 1, m1, [7], 20⟩), (wU, ⟨aA, 2, m1, List.replicate 32 0, 32⟩)],
   [(aA, wU)], [(wU, aA)], [(m1, 32)]⟩

/-- Witness for C10 at concrete input: both revocation operations return
the `metas_keylens` mapping unchanged. -/
theorem revoke_frames_metas_keylens_witness :
    stM'.mkl = stM.mkl ∧ stM'.mkl = stM.mkl :=
  ⟨(revoke_frames_metas_keylens hmZ wrapC mskZ uU aA pksZ stM).1 stM' rfl,
   (revoke_frames_metas_keylens hmZ wrapC mskZ uU aA pksZ stM).2 stM' rfl⟩
